import Mathlib

/-
Verification of the bup single-file backup tool.

The Rust sources are shallowly embedded as executable Lean definitions:

  * src/blob.rs     — versioned manifest (Blob / PrevBlob / Document) with the
                      reverse-delta algorithm, in namespace Bup.BlobRs;
  * src/storage.rs  — object-store adapter with its process-local cache, in
                      namespace Bup (Storage, object_path, put_block, ...);
  * src/lib.rs      — backup / restore pipelines (CHUNK_SIZE, chunking,
                      uploader loop, restore fetch + write), in namespace Bup.

Machine integers: Rust u8 values are modelled as Nat (each byte < 256 where it
matters), usize / u64 as Nat, i64 timestamps as Int.  No arithmetic in the
modelled code paths can overflow at these types.  The BLAKE3 hash function is
an opaque parameter (H : List Nat → Hash) of the pipeline definitions; the
modelled control flow never inspects digests beyond equality, exactly like the
source.  The concurrent pipeline of lib.rs assigns chunk hashes by
reader-assigned index, so its observable result is the sequential fold over
the blocks in index order, which is what the embedding computes.
-/

namespace Bup

/-- A byte string; each element models one u8 of a Rust Vec<u8>. -/
abbrev Bytes := List Nat

/-- A 32-byte BLAKE3 digest, modelled as its byte list ([u8; 32] in the source). -/
abbrev Hash := List Nat

namespace BlobRs

/-- Blob of src/blob.rs: an ordered chunk-hash sequence plus a Unix-seconds
timestamp. -/
structure Blob where
  chunk_hashes : List Hash
  timestamp : Int
deriving DecidableEq

/-- PrevBlob of src/blob.rs: reverse delta of a prior Blob against its
successor (run lengths of equal chunks interleaved with differing hashes). -/
structure PrevBlob where
  same_chunks_lengths : List Nat
  diff_chunks : List Hash
  timestamp : Int
deriving DecidableEq

/-- Document of src/blob.rs: current Blob plus the PrevBlob history. -/
structure Document where
  current : Blob
  history : List PrevBlob
deriving DecidableEq

/-- The all-zero placeholder hash (const FAKE_HASH in src/blob.rs). -/
def FAKE_HASH : Hash := List.replicate 32 0

/-- Blob::verify_invariants (src/blob.rs line 78): no sentinel hash remains. -/
def Blob.verify_invariants (b : Blob) : Bool :=
  b.chunk_hashes.all (fun x => x != FAKE_HASH)

/-- The loop of PrevBlob::from_diff (src/blob.rs lines 89-103), walking prev
index by index while the successor list is consumed in step; run is the
current_same_run accumulator.  Returns (same_chunks_lengths, diff_chunks). -/
def PrevBlob.diffAux : List Hash → List Hash → Nat → List Nat × List Hash
  | _, [], run => (if run > 0 then [run] else [], [])
  | [], p :: ps, run =>
    let r := PrevBlob.diffAux [] ps 0
    (run :: r.1, p :: r.2)
  | c :: cs, p :: ps, run =>
    if c = p then PrevBlob.diffAux cs ps (run + 1)
    else
      let r := PrevBlob.diffAux cs ps 0
      (run :: r.1, p :: r.2)

/-- PrevBlob::from_diff (src/blob.rs lines 85-120).  The two runtime asserts
of the source (|runs| - |diffs| < 2, and compute reconstructing prev) are not
encoded here; they are proved as theorems below. -/
def PrevBlob.from_diff (current prev : Blob) : PrevBlob :=
  { same_chunks_lengths := (PrevBlob.diffAux current.chunk_hashes prev.chunk_hashes 0).1
    diff_chunks := (PrevBlob.diffAux current.chunk_hashes prev.chunk_hashes 0).2
    timestamp := prev.timestamp }

/-- Taking exactly n elements off an iterator; none models a panic of the
unwrap in PrevBlob::compute (src/blob.rs line 131). -/
def takeExact : Nat → List Hash → Option (List Hash × List Hash)
  | 0, l => some ([], l)
  | _ + 1, [] => none
  | n + 1, h :: t =>
    match takeExact n t with
    | none => none
    | some (a, r) => some (h :: a, r)

/-- The loop of PrevBlob::compute (src/blob.rs lines 128-139): for each run
length copy that many successor hashes (unwrap → none on exhaustion), then if
a diff hash remains, silently advance the successor iterator and emit it. -/
def PrevBlob.computeAux : List Nat → List Hash → List Hash → Option (List Hash)
  | [], _, _ => some []
  | r :: rs, next, diffs =>
    match takeExact r next with
    | none => none
    | some (copied, rest) =>
      match diffs with
      | [] =>
        match PrevBlob.computeAux rs rest [] with
        | none => none
        | some l => some (copied ++ l)
      | d :: ds =>
        match PrevBlob.computeAux rs rest.tail ds with
        | none => none
        | some l => some (copied ++ d :: l)

/-- PrevBlob::compute (src/blob.rs lines 123-145); none models a panic. -/
def PrevBlob.compute (pb : PrevBlob) (next_version : Blob) : Option Blob :=
  match PrevBlob.computeAux pb.same_chunks_lengths next_version.chunk_hashes pb.diff_chunks with
  | none => none
  | some hs => some { chunk_hashes := hs, timestamp := pb.timestamp }

/-- Document::new (src/blob.rs lines 27-32). -/
def Document.new (blob : Blob) : Document :=
  { current := blob, history := [] }

/-- Document::update (src/blob.rs lines 36-42): the invariant check of the
new blob (an assert, modelled as the none branch), then push the diff against
current and replace current. -/
def Document.update (d : Document) (new_blob : Blob) : Option Document :=
  if new_blob.verify_invariants then
    some { current := new_blob
           history := d.history ++ [PrevBlob.from_diff new_blob d.current] }
  else none

lemma takeExact_append (pre rest : List Hash) :
    takeExact pre.length (pre ++ rest) = some (pre, rest) := by
  induction pre with
  | nil => rfl
  | cons h t ih => simp [takeExact, ih]

/-- Key lemma: reconstructing with the delta built while pre (the already
matched prefix of the successor) has been consumed yields pre ++ prev. -/
lemma diffAux_compute (prev : List Hash) : ∀ (cur pre : List Hash),
    PrevBlob.computeAux (PrevBlob.diffAux cur prev pre.length).1 (pre ++ cur)
      (PrevBlob.diffAux cur prev pre.length).2 = some (pre ++ prev) := by
  induction prev with
  | nil =>
    intro cur pre
    cases pre with
    | nil => simp [PrevBlob.diffAux, PrevBlob.computeAux]
    | cons a t =>
      simp only [PrevBlob.diffAux, List.length_cons, List.append_nil]
      rw [if_pos (Nat.succ_pos t.length)]
      simp only [PrevBlob.computeAux]
      rw [show t.length + 1 = (a :: t).length from rfl, takeExact_append]
      simp [PrevBlob.computeAux]
  | cons p ps ih =>
    intro cur pre
    cases cur with
    | nil =>
      have h0 := ih [] []
      simp only [List.length_nil, List.append_nil, List.nil_append] at h0
      have ht : takeExact pre.length pre = some (pre, []) := by
        simpa using takeExact_append pre []
      simp only [PrevBlob.diffAux, PrevBlob.computeAux, List.append_nil]
      rw [ht]
      simp only [List.tail_nil, h0]
    | cons c cs =>
      by_cases hcp : c = p
      · subst hcp
        have hstep := ih cs (pre ++ [c])
        simp only [List.length_append, List.length_cons, List.length_nil] at hstep
        simp only [PrevBlob.diffAux, if_pos rfl]
        rw [show pre.length + (0 + 1) = pre.length + 1 from by omega] at hstep
        rw [show (pre ++ [c]) ++ cs = pre ++ c :: cs from by simp] at hstep
        rw [show (pre ++ [c]) ++ ps = pre ++ c :: ps from by simp] at hstep
        exact hstep
      · have h0 := ih cs []
        simp only [List.length_nil, List.nil_append] at h0
        simp only [PrevBlob.diffAux, if_neg hcp, PrevBlob.computeAux]
        rw [takeExact_append pre (c :: cs)]
        simp only [List.tail_cons, h0]

/-- Lengths invariant of the generated delta, for the run accumulator state. -/
lemma diffAux_lengths : ∀ (prev cur : List Hash) (run : Nat),
    (PrevBlob.diffAux cur prev run).2.length ≤ (PrevBlob.diffAux cur prev run).1.length ∧
    (PrevBlob.diffAux cur prev run).1.length ≤ (PrevBlob.diffAux cur prev run).2.length + 1 := by
  intro prev
  induction prev with
  | nil =>
    intro cur run
    simp only [PrevBlob.diffAux]
    split <;> simp
  | cons p ps ih =>
    intro cur run
    cases cur with
    | nil =>
      have h := ih [] 0
      simp only [PrevBlob.diffAux, List.length_cons]
      omega
    | cons c cs =>
      by_cases hcp : c = p
      · simpa only [PrevBlob.diffAux, if_pos hcp] using ih cs (run + 1)
      · have h := ih cs 0
        simp only [PrevBlob.diffAux, if_neg hcp, List.length_cons]
        omega

/-- C2: for Blobs new and prev with |prev| ≤ |new|, the PrevBlob produced by
from_diff reconstructs the prior Blob exactly: compute applied to the
successor returns some prev (timestamp included). -/
theorem from_diff_reconstructs (new_blob prev : Blob)
    (hle : prev.chunk_hashes.length ≤ new_blob.chunk_hashes.length) :
    (PrevBlob.from_diff new_blob prev).compute new_blob = some prev := by
  have h := diffAux_compute prev.chunk_hashes new_blob.chunk_hashes []
  simp only [List.length_nil, List.nil_append] at h
  simp only [PrevBlob.compute, PrevBlob.from_diff, h]

/-- Witness for C2 at a concrete pair of Blobs. -/
theorem from_diff_reconstructs_witness :
    (PrevBlob.from_diff
        { chunk_hashes := [[1], [2], [3]], timestamp := 7 }
        { chunk_hashes := [[1], [9]], timestamp := 5 }).compute
      { chunk_hashes := [[1], [2], [3]], timestamp := 7 } =
      some { chunk_hashes := [[1], [9]], timestamp := 5 } := by
  have hle : ([[1], [9]] : List Hash).length ≤ ([[1], [2], [3]] : List Hash).length := by
    decide
  exact from_diff_reconstructs
    { chunk_hashes := [[1], [2], [3]], timestamp := 7 }
    { chunk_hashes := [[1], [9]], timestamp := 5 } hle

/-- C10: for every pair of Blobs, with no restriction on relative lengths,
from_diff completes without panicking: the run list is never shorter than the
diff list (the usize subtraction in its assert cannot underflow and the assert
holds), and the internal round-trip assert holds — compute on the diff it
builds never hits a failing unwrap and returns exactly the prior Blob. -/
theorem from_diff_total_roundtrip (new_blob prev : Blob) :
    (PrevBlob.from_diff new_blob prev).diff_chunks.length ≤
      (PrevBlob.from_diff new_blob prev).same_chunks_lengths.length ∧
    (PrevBlob.from_diff new_blob prev).compute new_blob = some prev := by
  constructor
  · exact (diffAux_lengths prev.chunk_hashes new_blob.chunk_hashes 0).1
  · have h := diffAux_compute prev.chunk_hashes new_blob.chunk_hashes []
    simp only [List.length_nil, List.nil_append] at h
    simp only [PrevBlob.compute, PrevBlob.from_diff, h]

/-- C7: every PrevBlob produced by from_diff satisfies the invariant that
|runs| - |diffs| is 0 or 1: the run list is at least as long as the diff
list and exceeds it by at most one. -/
theorem from_diff_runs_diffs_invariant (new_blob prev : Blob) :
    (PrevBlob.from_diff new_blob prev).diff_chunks.length ≤
      (PrevBlob.from_diff new_blob prev).same_chunks_lengths.length ∧
    (PrevBlob.from_diff new_blob prev).same_chunks_lengths.length ≤
      (PrevBlob.from_diff new_blob prev).diff_chunks.length + 1 := by
  exact diffAux_lengths prev.chunk_hashes new_blob.chunk_hashes 0

/-- C6: Document.update checks the no-sentinel invariant of the new blob,
then pushes exactly one PrevBlob computed from (new, current) onto history and
replaces current; in particular when the new blob's hash sequence equals
current's, the current hash sequence is unchanged while history grows by
exactly one entry per call, never merged. -/
theorem update_pushes_one_prevblob (d : Document) (new_blob : Blob)
    (hinv : new_blob.verify_invariants = true) :
    d.update new_blob =
      some { current := new_blob
             history := d.history ++ [PrevBlob.from_diff new_blob d.current] } ∧
    ∀ d', d.update new_blob = some d' →
      d'.history.length = d.history.length + 1 ∧
      (new_blob.chunk_hashes = d.current.chunk_hashes →
        d'.current.chunk_hashes = d.current.chunk_hashes) := by
  constructor
  · simp [Document.update, hinv]
  · intro d' hd'
    simp only [Document.update, hinv, if_true, Option.some.injEq] at hd'
    subst hd'
    constructor
    · simp
    · intro h
      exact h

/-- Witness for C6 at a concrete Document and Blob with equal hash sequences. -/
theorem update_pushes_one_prevblob_witness :
    ({ current := { chunk_hashes := [[5]], timestamp := 1 }
       history := [] } : Document).update
        { chunk_hashes := [[5]], timestamp := 2 } =
      some { current := { chunk_hashes := [[5]], timestamp := 2 }
             history := [PrevBlob.from_diff
               { chunk_hashes := [[5]], timestamp := 2 }
               { chunk_hashes := [[5]], timestamp := 1 }] } := by
  have hinv : ({ chunk_hashes := [[5]], timestamp := 2 } : Blob).verify_invariants = true := by
    decide
  exact (update_pushes_one_prevblob
    { current := { chunk_hashes := [[5]], timestamp := 1 }, history := [] }
    { chunk_hashes := [[5]], timestamp := 2 } hinv).1

end BlobRs

/-- Blob of src/lib.rs (lines 25-28): just the chunk-hash vector (the manifest
flavour used by the storage adapter and the pipelines of lib.rs). -/
structure Blob where
  chunk_hashes : List Hash
deriving DecidableEq

/-- One sextet of the base64url alphabet (A-Z, a-z, 0-9, -, _). -/
def b64Char (n : Nat) : Char :=
  if n < 26 then Char.ofNat (65 + n)
  else if n < 52 then Char.ofNat (97 + (n - 26))
  else if n < 62 then Char.ofNat (48 + (n - 52))
  else if n = 62 then Char.ofNat 45
  else Char.ofNat 95

/-- base64url encoding without padding (BASE64_URL_SAFE_NO_PAD of the base64
crate), three input bytes per four output characters, partial groups emitted
without padding characters. -/
def base64urlNoPad : List Nat → List Char
  | [] => []
  | [b1] => [b64Char (b1 / 4), b64Char (b1 % 4 * 16)]
  | [b1, b2] => [b64Char (b1 / 4), b64Char (b1 % 4 * 16 + b2 / 16), b64Char (b2 % 16 * 4)]
  | b1 :: b2 :: b3 :: rest =>
    b64Char (b1 / 4) :: b64Char (b1 % 4 * 16 + b2 / 16) ::
      b64Char (b2 % 16 * 4 + b3 / 64) :: b64Char (b3 % 64) :: base64urlNoPad rest

/-- An object-store path (object_store::path::Path), as its character list. -/
abbrev Key := List Char

/-- Storage::object_path (src/storage.rs lines 36-38): the bare base64url
no-pad encoding of the key bytes — note: no prefix byte of any kind. -/
def object_path (key : List Nat) : Key := base64urlNoPad key

/-- Lookup in the backing key-value object store (get / head). -/
def lookupKey : List (Key × Bytes) → Key → Option Bytes
  | [], _ => none
  | (k, v) :: rest, key => if k = key then some v else lookupKey rest key

/-- Atomic object put: replace the value under the key, or append it. -/
def putKey : List (Key × Bytes) → Key → Bytes → List (Key × Bytes)
  | [], key, v => [(key, v)]
  | (k, w) :: rest, key, v =>
    if k = key then (key, v) :: rest else (k, w) :: putKey rest key v

/-- LocalData of src/storage.rs (lines 120-124): the process-local cache of
hashes known stored plus the last-known root metadata.  The HashSet is
modelled as a duplicate-free insertion list. -/
structure LocalData where
  hashes_stored : List Hash
  metadata : Option Blob
deriving DecidableEq

/-- Storage of src/storage.rs: the backing object store (its chunk objects,
and the object at the caller-supplied root_key held in decoded form — the
root_key path is distinct from the 43-character chunk keys) plus the local
cache.  Persisting the cache to data_path always succeeds in the model. -/
structure Storage where
  objects : List (Key × Bytes)
  root : Option Blob
  data : LocalData
deriving DecidableEq

/-- HashSet::insert of the cache. -/
def insertHash (l : List Hash) (h : Hash) : List Hash :=
  if h ∈ l then l else l ++ [h]

/-- Storage::has_block (src/storage.rs lines 62-87): a cache hit returns true
without consulting the store; otherwise head the store and on success record
the hash in the cache.  Returns the result together with the updated state. -/
def has_block (s : Storage) (h : Hash) : Bool × Storage :=
  if h ∈ s.data.hashes_stored then (true, s)
  else if (lookupKey s.objects (object_path h)).isSome then
    (true, { s with data := { s.data with hashes_stored := insertHash s.data.hashes_stored h } })
  else (false, s)

/-- Storage::put_block (src/storage.rs lines 47-60): upload only when
has_block says the block is missing, then record the hash in the cache. -/
def put_block (s : Storage) (h : Hash) (d : Bytes) : Storage :=
  let r := has_block s h
  if r.1 then r.2
  else
    { r.2 with
      objects := putKey r.2.objects (object_path h) d
      data := { r.2.data with hashes_stored := insertHash r.2.data.hashes_stored h } }

/-- Storage::get_block (src/storage.rs lines 89-93): fetch the object bytes;
none models the not-found / store error. -/
def get_block (s : Storage) (h : Hash) : Option Bytes :=
  lookupKey s.objects (object_path h)

/-- Storage::get_root_metadata (src/storage.rs lines 95-109): the cached
metadata wins; otherwise fetch and decode the root object and cache it.
none models the store get failing (root absent). -/
def get_root_metadata (s : Storage) : Option (Blob × Storage) :=
  match s.data.metadata with
  | some m => some (m, s)
  | none =>
    match s.root with
    | none => none
    | some b => some (b, { s with data := { s.data with metadata := some b } })

/-- Storage::put_root_metadata (src/storage.rs lines 111-117): atomic replace
of the root object, also cached. -/
def put_root_metadata (s : Storage) (b : Blob) : Storage :=
  { s with root := some b, data := { s.data with metadata := some b } }

/-- A Storage with empty store and empty cache. -/
def emptyStorage : Storage :=
  { objects := [], root := none, data := { hashes_stored := [], metadata := none } }

/-- The 32-byte all-zero digest, used as a concrete test hash. -/
def zeroHash : Hash := List.replicate 32 0

/-- A Storage whose local cache claims zeroHash is stored while the backing
store holds nothing: the two have diverged. -/
def cacheOnlyStorage : Storage :=
  { objects := [], root := none, data := { hashes_stored := [zeroHash], metadata := none } }

/-- C3 counterexample: has_block answers true from a stale cache entry even
though the chunk object does not exist in the backing store, and the same
query against the same (empty) store with an empty cache answers false — so
has_block is not equivalent to store existence and its result does depend on
the process-local cache contents. -/
theorem has_block_trusts_stale_cache :
    (has_block cacheOnlyStorage zeroHash).1 = true ∧
    get_block cacheOnlyStorage zeroHash = none ∧
    (has_block emptyStorage zeroHash).1 = false := by
  refine ⟨?_, ?_, ?_⟩ <;> decide

/-- C3 (amended): has_block returns true iff the hash is in the local cache
or the chunk object exists in the backing store; consequently whenever the
cache is sound — every cached hash genuinely present in the store — has_block
agrees exactly with store existence, so its result is independent of which
sound cache the process happens to hold, with the store authoritative. -/
theorem has_block_agrees_with_store_for_sound_cache (s : Storage) (h : Hash)
    (hsound : ∀ h' ∈ s.data.hashes_stored,
      (lookupKey s.objects (object_path h')).isSome = true) :
    (has_block s h).1 = (lookupKey s.objects (object_path h)).isSome := by
  unfold has_block
  by_cases hc : h ∈ s.data.hashes_stored
  · simp [hc, hsound h hc]
  · by_cases he : (lookupKey s.objects (object_path h)).isSome = true
    · simp [hc, he]
    · simp [hc, he]

/-- Witness for the amended C3 at a concrete sound-cache state. -/
theorem has_block_agrees_with_store_for_sound_cache_witness :
    (has_block emptyStorage zeroHash).1 =
      (lookupKey emptyStorage.objects (object_path zeroHash)).isSome :=
  has_block_agrees_with_store_for_sound_cache emptyStorage zeroHash (by decide)

/-- C4 counterexample: put_block stores the chunk for the zero hash under the
bare 43-character base64url key AAAA…A; the key does not start with the
prefix byte C that the claim requires (there is no prefix byte at all). -/
theorem put_block_key_has_no_prefix :
    (put_block emptyStorage zeroHash [1, 2, 3]).objects =
      [(List.replicate 43 (Char.ofNat 65), [1, 2, 3])] ∧
    (List.replicate 43 (Char.ofNat 65)).head? ≠ some (Char.ofNat 67) := by
  refine ⟨?_, ?_⟩ <;> decide

lemma has_block_false_eq (s : Storage) (h : Hash)
    (hfalse : (has_block s h).1 = false) : has_block s h = (false, s) := by
  unfold has_block at *
  by_cases hc : h ∈ s.data.hashes_stored
  · simp [hc] at hfalse
  · by_cases he : (lookupKey s.objects (object_path h)).isSome = true
    · simp [hc, he] at hfalse
    · simp [hc, he]

lemma lookupKey_putKey_self (os : List (Key × Bytes)) (k : Key) (d : Bytes) :
    lookupKey (putKey os k d) k = some d := by
  induction os with
  | nil => simp [putKey, lookupKey]
  | cons p rest ih =>
    obtain ⟨k0, v0⟩ := p
    by_cases hk : k0 = k
    · simp [putKey, lookupKey, hk]
    · simp [putKey, lookupKey, hk, ih]

/-- Length of the no-pad base64 encoding: four characters per full three-byte
group, a two- or three-character tail for a partial group. -/
lemma base64urlNoPad_length (l : List Nat) :
    (base64urlNoPad l).length =
      l.length / 3 * 4 + (if l.length % 3 = 0 then 0 else l.length % 3 + 1) := by
  induction l using base64urlNoPad.induct with
  | case1 => simp [base64urlNoPad]
  | case2 b1 => simp [base64urlNoPad]
  | case3 b1 b2 => simp [base64urlNoPad]
  | case4 b1 b2 b3 rest ih =>
    simp only [base64urlNoPad, List.length_cons, ih]
    have h1 : (rest.length + 1 + 1 + 1) % 3 = rest.length % 3 := by omega
    have h2 : (rest.length + 1 + 1 + 1) / 3 = rest.length / 3 + 1 := by omega
    rw [h1, h2]
    by_cases h : rest.length % 3 = 0 <;> simp [h] <;> omega

/-- C4 (amended): put_block stores a missing chunk object under the key which
is the bare base64url-no-padding encoding of the 32-byte hash — 43 ASCII
characters — with no prefix byte in front of it (and hence no C / R prefix
separation of the key spaces; the root key is a separate caller-supplied
path). -/
theorem put_block_stores_under_bare_base64 (s : Storage) (h : Hash) (d : Bytes)
    (hlen : h.length = 32) (habsent : (has_block s h).1 = false) :
    lookupKey (put_block s h d).objects (object_path h) = some d ∧
    (object_path h).length = 43 := by
  constructor
  · unfold put_block
    rw [has_block_false_eq s h habsent]
    simpa using lookupKey_putKey_self s.objects (object_path h) d
  · unfold object_path
    rw [base64urlNoPad_length, hlen]
    decide

/-- Witness for the amended C4 at the zero hash on the empty store. -/
theorem put_block_stores_under_bare_base64_witness :
    lookupKey (put_block emptyStorage zeroHash [1, 2, 3]).objects
        (object_path zeroHash) = some [1, 2, 3] ∧
    (object_path zeroHash).length = 43 :=
  put_block_stores_under_bare_base64 emptyStorage zeroHash [1, 2, 3]
    (by decide) (by decide)

/-- CHUNK_SIZE of src/lib.rs (line 23): 128 KiB. -/
def CHUNK_SIZE : Nat := 128 * 1024

/-- Block of src/lib.rs (lines 45-49): chunk bytes tagged with their index. -/
structure Block where
  idx : Nat
  data : Bytes
deriving DecidableEq

/-- The reader loop of backup (src/lib.rs lines 181-196): read_exact fills a
CHUNK_SIZE buffer; an UnexpectedEof — any remainder shorter than CHUNK_SIZE,
including a non-empty partial tail — breaks out of the loop, so a final
partial chunk is discarded, not zero-padded. -/
def chunkBlocks (cs : Nat) (bytes : Bytes) : List Bytes :=
  if h : cs = 0 ∨ bytes.length < cs then []
  else bytes.take cs :: chunkBlocks cs (bytes.drop cs)
termination_by bytes.length
decreasing_by
  push_neg at h
  simp only [List.length_drop]
  omega

/-- The reader's index tagging (for idx in 0.., src/lib.rs line 181) combined
with the hashing stage: each block is paired with its digest.  H stands for
blake3::hash. -/
def itemsFrom (H : Bytes → Hash) : Nat → List Bytes → List (Hash × Block)
  | _, [] => []
  | i, d :: ds => (H d, { idx := i, data := d }) :: itemsFrom H (i + 1) ds

/-- The stream of (hash, block) pairs the uploader receives for a file with
the given bytes, in reader order. -/
def backupItems (H : Bytes → Hash) (bytes : Bytes) : List (Hash × Block) :=
  itemsFrom H 0 (chunkBlocks CHUNK_SIZE bytes)

/-- The manifest assignment of BlockUploader::upload (src/lib.rs lines
72-76): resize with the hash as fill when the index is beyond the end, else
overwrite in place. -/
def blobSet (b : Blob) (idx : Nat) (h : Hash) : Blob :=
  if b.chunk_hashes.length ≤ idx then
    { chunk_hashes := b.chunk_hashes ++ List.replicate (idx + 1 - b.chunk_hashes.length) h }
  else { chunk_hashes := b.chunk_hashes.set idx h }

/-- The receive loop of BlockUploader::upload (src/lib.rs lines 71-83),
serialised in channel order: assign the hash into the blob at the block's
index and put the block. -/
def uploadLoop : Storage → Blob → List (Hash × Block) → Storage × Blob
  | s, b, [] => (s, b)
  | s, b, (h, blk) :: rest => uploadLoop (put_block s h blk.data) (blobSet b blk.idx h) rest

/-- BlockUploader::upload (src/lib.rs lines 61-91): start from the empty blob
(initial) or the fetched root metadata (none models that get failing), drain
the channel, then publish the root.  Store puts always succeed in the model. -/
def upload (s : Storage) (initial : Bool) (items : List (Hash × Block)) : Option Storage :=
  match (if initial then some ({ chunk_hashes := [] }, s) else get_root_metadata s) with
  | none => none
  | some (b0, s1) =>
    let r := uploadLoop s1 b0 items
    some (put_root_metadata r.1 r.2)

/-- backup (src/lib.rs lines 171-213): chunk the file, hash each block,
upload, publish the root manifest. -/
def backup (H : Bytes → Hash) (s : Storage) (bytes : Bytes) (initial : Bool) :
    Option Storage :=
  upload s initial (backupItems H bytes)

/-- The error outcomes of restore. -/
inductive RestoreError
  | notFound
  | hashMismatch
deriving DecidableEq

/-- The fetch loop of restore (src/lib.rs lines 268-278): for each manifest
hash get the chunk bytes and bail as soon as the recomputed digest differs
from the expected one. -/
def fetchChunks (H : Bytes → Hash) (s : Storage) : List Hash → Except RestoreError (List Bytes)
  | [] => .ok []
  | h :: hs =>
    match get_block s h with
    | none => .error .notFound
    | some d =>
      if h = H d then
        match fetchChunks H s hs with
        | .error e => .error e
        | .ok rest => .ok (d :: rest)
      else .error .hashMismatch

/-- The writer of restore (src/lib.rs lines 281-294): the output file is
opened with create + write but without truncate, so the fetched chunks
overwrite the file from the start and any longer prior content keeps its
tail. -/
def writeRestored (prior : Bytes) (chunks : List Bytes) : Bytes :=
  chunks.join ++ prior.drop chunks.join.length

/-- restore (src/lib.rs lines 263-301): read the root manifest, fetch and
verify every chunk in order, write them over the prior output-file bytes. -/
def restore (H : Bytes → Hash) (s : Storage) (prior : Bytes) :
    Except RestoreError Bytes :=
  match get_root_metadata s with
  | none => .error .notFound
  | some (blob, s1) =>
    match fetchChunks H s1 blob.chunk_hashes with
    | .error e => .error e
    | .ok chunks => .ok (writeRestored prior chunks)

/-- backup of a fresh file onto an empty store, immediately followed by
restore from the same storage over the given prior output bytes. -/
def backupThenRestore (H : Bytes → Hash) (bytes prior : Bytes) :
    Option (Except RestoreError Bytes) :=
  (backup H emptyStorage bytes true).map (fun s1 => restore H s1 prior)

/-- A concrete stand-in digest function used to evaluate counterexamples
whose outcome does not depend on the digest values. -/
def constHash : Bytes → Hash := fun _ => List.replicate 32 1

lemma chunkBlocks_short (cs : Nat) (bytes : Bytes) (h : bytes.length < cs) :
    chunkBlocks cs bytes = [] := by
  rw [chunkBlocks]
  exact dif_pos (Or.inr h)

/-- C1 (code bug): backing up a one-byte file and restoring yields the empty
file — the reader's UnexpectedEof break discards the final partial chunk —
whereas the claim requires the byte to be preserved, zero-padded to
CHUNK_SIZE. -/
theorem backup_restore_drops_partial_tail :
    backupThenRestore constHash [7] [] = some (Except.ok ([] : Bytes)) ∧
    ([] : Bytes) ≠ [7] ++ List.replicate (CHUNK_SIZE - 1) 0 := by
  constructor
  · unfold backupThenRestore backup backupItems
    rw [chunkBlocks_short CHUNK_SIZE [7] (by norm_num [CHUNK_SIZE])]
    rfl
  · simp

/-- C9 (code bug): restore does not truncate the output file: restoring a
backup of the empty file over an output file that already holds two bytes
leaves those stale bytes in place, whereas the claim requires the output
length to equal the number of manifest chunks (here 0) times CHUNK_SIZE. -/
theorem restore_keeps_stale_tail :
    backupThenRestore constHash [] [1, 2] = some (Except.ok ([1, 2] : Bytes)) ∧
    ([1, 2] : Bytes).length ≠ 0 * CHUNK_SIZE := by
  constructor
  · unfold backupThenRestore backup backupItems
    rw [chunkBlocks_short CHUNK_SIZE [] (by norm_num [CHUNK_SIZE])]
    rfl
  · decide

lemma get_root_metadata_objects (s : Storage) (b : Blob) (s1 : Storage)
    (h : get_root_metadata s = some (b, s1)) : s1.objects = s.objects := by
  unfold get_root_metadata at h
  split at h
  · simp only [Option.some.injEq, Prod.mk.injEq] at h
    rw [← h.2]
  · split at h
    · exact absurd h (by simp)
    · simp only [Option.some.injEq, Prod.mk.injEq] at h
      rw [← h.2]

lemma fetchChunks_mismatch (H : Bytes → Hash) (s : Storage) :
    ∀ hs : List Hash, (∀ h ∈ hs, (get_block s h).isSome = true) →
      (∃ h ∈ hs, ∃ d, get_block s h = some d ∧ H d ≠ h) →
      fetchChunks H s hs = .error .hashMismatch := by
  intro hs
  induction hs with
  | nil => intro _ hex; simp at hex
  | cons h t ih =>
    intro hpres hex
    have hsome := hpres h (by simp)
    obtain ⟨d, hd⟩ := Option.isSome_iff_exists.mp hsome
    by_cases heq : h = H d
    · have htail : ∃ h' ∈ t, ∃ d', get_block s h' = some d' ∧ H d' ≠ h' := by
        obtain ⟨h', hmem, d', hd', hne⟩ := hex
        rcases List.mem_cons.mp hmem with rfl | hmem'
        · rw [hd] at hd'
          injection hd' with hdd
          exact absurd heq.symm (hdd ▸ hne)
        · exact ⟨h', hmem', d', hd', hne⟩
      have := ih (fun h' hm => hpres h' (List.mem_cons_of_mem _ hm)) htail
      simp only [fetchChunks, hd, if_pos heq, this]
    · simp only [fetchChunks, hd, if_neg heq]

lemma fetchChunks_ok (H : Bytes → Hash) (s : Storage) :
    ∀ hs : List Hash, (∀ h ∈ hs, (get_block s h).isSome = true) →
      (∀ h ∈ hs, ∀ d, get_block s h = some d → H d = h) →
      ∃ out, fetchChunks H s hs = .ok out := by
  intro hs
  induction hs with
  | nil => intro _ _; exact ⟨[], rfl⟩
  | cons h t ih =>
    intro hpres hok
    have hsome := hpres h (by simp)
    obtain ⟨d, hd⟩ := Option.isSome_iff_exists.mp hsome
    have heq : h = H d := (hok h (by simp) d hd).symm
    obtain ⟨out, hout⟩ := ih (fun h' hm => hpres h' (List.mem_cons_of_mem _ hm))
      (fun h' hm => hok h' (List.mem_cons_of_mem _ hm))
    exact ⟨d :: out, by simp only [fetchChunks, hd, if_pos heq, hout]⟩

lemma fetchChunks_congr (H : Bytes → Hash) (s1 s : Storage)
    (hobj : ∀ h, get_block s1 h = get_block s h) :
    ∀ hs : List Hash, fetchChunks H s1 hs = fetchChunks H s hs := by
  intro hs
  induction hs with
  | nil => rfl
  | cons h t ih => simp only [fetchChunks, hobj, ih]

/-- C8: restore verifies each fetched chunk against the hash recorded in the
manifest: when every referenced chunk object is present, restore fails with
the hash-mismatch error whenever some referenced object's bytes do not hash
to the expected value, and succeeds when every object verifies. -/
theorem restore_verifies_every_chunk (H : Bytes → Hash) (s : Storage)
    (blob : Blob) (s1 : Storage) (prior : Bytes)
    (hroot : get_root_metadata s = some (blob, s1))
    (hpresent : ∀ h ∈ blob.chunk_hashes, (get_block s h).isSome = true) :
    ((∃ h ∈ blob.chunk_hashes, ∃ d, get_block s h = some d ∧ H d ≠ h) →
      restore H s prior = .error .hashMismatch) ∧
    ((∀ h ∈ blob.chunk_hashes, ∀ d, get_block s h = some d → H d = h) →
      ∃ out, restore H s prior = .ok out) := by
  have hobj : ∀ h, get_block s1 h = get_block s h := by
    intro h
    unfold get_block
    rw [get_root_metadata_objects s blob s1 hroot]
  constructor
  · intro hex
    have := fetchChunks_mismatch H s blob.chunk_hashes hpresent hex
    have h1 : fetchChunks H s1 blob.chunk_hashes = .error .hashMismatch := by
      rw [fetchChunks_congr H s1 s hobj]
      exact this
    unfold restore
    rw [hroot]
    simp only [h1]
  · intro hok
    obtain ⟨out, hout⟩ := fetchChunks_ok H s blob.chunk_hashes hpresent hok
    have h1 : fetchChunks H s1 blob.chunk_hashes = .ok out := by
      rw [fetchChunks_congr H s1 s hobj]
      exact hout
    refine ⟨writeRestored prior out, ?_⟩
    unfold restore
    rw [hroot]
    simp only [h1]

/-- A Storage whose manifest references the zero hash while the stored chunk
object holds bytes that do not hash back to it. -/
def mismatchStorage : Storage :=
  { objects := [(object_path zeroHash, [5])]
    root := none
    data := { hashes_stored := [], metadata := some { chunk_hashes := [zeroHash] } } }

/-- Witness for C8: restore over a store holding a corrupted chunk object
fails with the hash-mismatch error. -/
theorem restore_verifies_every_chunk_witness :
    restore constHash mismatchStorage [] = .error .hashMismatch := by
  have hroot : get_root_metadata mismatchStorage =
      some ({ chunk_hashes := [zeroHash] }, mismatchStorage) := rfl
  have hpresent : ∀ h ∈ ({ chunk_hashes := [zeroHash] } : Blob).chunk_hashes,
      (get_block mismatchStorage h).isSome = true := by decide
  refine (restore_verifies_every_chunk constHash mismatchStorage _ _ [] hroot hpresent).1 ?_
  refine ⟨zeroHash, by simp, [5], by decide, by decide⟩

/-- C5 counterexample: after two backups of the same one-byte file the store
holds zero chunk objects, while ceil(len / CHUNK_SIZE) = ceil(1 / 131072) = 1
— the store does not contain ceil(len/CHUNK_SIZE) chunk objects. -/
theorem dedup_ceil_count_counterexample :
    ((backup constHash emptyStorage [7] true).bind
        (fun s1 => backup constHash s1 [7] false)).map
      (fun s => s.objects.length) = some 0 ∧
    (1 + CHUNK_SIZE - 1) / CHUNK_SIZE = 1 := by
  constructor
  · simp only [backup, backupItems]
    rw [chunkBlocks_short CHUNK_SIZE [7] (by norm_num [CHUNK_SIZE])]
    rfl
  · norm_num [CHUNK_SIZE]

lemma insertHash_self (l : List Hash) (h : Hash) : h ∈ insertHash l h := by
  unfold insertHash
  split
  · assumption
  · simp

lemma insertHash_mono (l : List Hash) (h h' : Hash) (hm : h' ∈ l) :
    h' ∈ insertHash l h := by
  unfold insertHash
  split
  · exact hm
  · simp [hm]

lemma insertHash_cases (l : List Hash) (h h' : Hash) (hm : h' ∈ insertHash l h) :
    h' ∈ l ∨ h' = h := by
  unfold insertHash at hm
  split at hm
  · exact Or.inl hm
  · rcases List.mem_append.mp hm with hl | hr
    · exact Or.inl hl
    · exact Or.inr (List.mem_singleton.mp hr)

lemma put_block_of_cached (s : Storage) (h : Hash) (d : Bytes)
    (hc : h ∈ s.data.hashes_stored) : put_block s h d = s := by
  unfold put_block has_block
  simp [hc]

lemma put_block_cache_mem (s : Storage) (h : Hash) (d : Bytes) :
    h ∈ (put_block s h d).data.hashes_stored := by
  unfold put_block has_block
  by_cases hc : h ∈ s.data.hashes_stored
  · simp [hc]
  · by_cases he : (lookupKey s.objects (object_path h)).isSome = true
    · simp [hc, he, insertHash_self]
    · simp [hc, he, insertHash_self]

lemma put_block_cache_mono (s : Storage) (h : Hash) (d : Bytes) (h' : Hash)
    (hm : h' ∈ s.data.hashes_stored) : h' ∈ (put_block s h d).data.hashes_stored := by
  unfold put_block has_block
  by_cases hc : h ∈ s.data.hashes_stored
  · simp [hc, hm]
  · by_cases he : (lookupKey s.objects (object_path h)).isSome = true
    · simp [hc, he, insertHash_mono _ _ _ hm]
    · simp [hc, he, insertHash_mono _ _ _ hm]

/-- C5 (part): put_block is idempotent on the whole storage state. -/
lemma put_block_idem (s : Storage) (h : Hash) (d : Bytes) :
    put_block (put_block s h d) h d = put_block s h d :=
  put_block_of_cached _ h d (put_block_cache_mem s h d)

lemma lookupKey_isSome_iff (os : List (Key × Bytes)) (k : Key) :
    (lookupKey os k).isSome = true ↔ k ∈ os.map Prod.fst := by
  induction os with
  | nil => simp [lookupKey]
  | cons p rest ih =>
    obtain ⟨k0, v⟩ := p
    by_cases h : k0 = k
    · simp [lookupKey, h]
    · have h' : ¬ (k = k0) := fun e => h e.symm
      simp [lookupKey, h, h', ih]

lemma putKey_of_absent (os : List (Key × Bytes)) (k : Key) (d : Bytes)
    (habs : lookupKey os k = none) : putKey os k d = os ++ [(k, d)] := by
  induction os with
  | nil => rfl
  | cons p rest ih =>
    obtain ⟨k0, v⟩ := p
    by_cases h : k0 = k
    · simp [lookupKey, h] at habs
    · simp only [lookupKey, if_neg h] at habs
      simp [putKey, h, ih habs]

/-- Soundness of the local cache against the store: every cached hash has its
chunk object present. -/
def cacheSound (s : Storage) : Prop :=
  ∀ h' ∈ s.data.hashes_stored, object_path h' ∈ s.objects.map Prod.fst

lemma put_block_keys (s : Storage) (h : Hash) (d : Bytes) (hs : cacheSound s) :
    cacheSound (put_block s h d) ∧
    ((s.objects.map Prod.fst).Nodup → ((put_block s h d).objects.map Prod.fst).Nodup) ∧
    ((put_block s h d).objects.map Prod.fst).toFinset =
      insert (object_path h) (s.objects.map Prod.fst).toFinset := by
  by_cases hc : h ∈ s.data.hashes_stored
  · rw [put_block_of_cached s h d hc]
    refine ⟨hs, fun hn => hn, ?_⟩
    exact (Finset.insert_eq_self.mpr (List.mem_toFinset.mpr (hs h hc))).symm
  · by_cases he : (lookupKey s.objects (object_path h)).isSome = true
    · have hmem : object_path h ∈ s.objects.map Prod.fst :=
        (lookupKey_isSome_iff s.objects (object_path h)).mp he
      have hpb : put_block s h d =
          { s with data := { s.data with
              hashes_stored := insertHash s.data.hashes_stored h } } := by
        unfold put_block has_block
        simp [hc, he]
      rw [hpb]
      refine ⟨?_, fun hn => hn, ?_⟩
      · intro h' hm
        rcases insertHash_cases _ _ _ hm with hold | rfl
        · exact hs h' hold
        · exact hmem
      · exact (Finset.insert_eq_self.mpr (List.mem_toFinset.mpr hmem)).symm
    · have habs : lookupKey s.objects (object_path h) = none :=
        Option.not_isSome_iff_eq_none.mp (by simpa using he)
      have hnot : object_path h ∉ s.objects.map Prod.fst := by
        intro hmem
        exact he ((lookupKey_isSome_iff s.objects (object_path h)).mpr hmem)
      have hpb : put_block s h d =
          { s with
            objects := s.objects ++ [(object_path h, d)]
            data := { s.data with
              hashes_stored := insertHash s.data.hashes_stored h } } := by
        unfold put_block has_block
        simp [hc, he, putKey_of_absent s.objects (object_path h) d habs]
      rw [hpb]
      refine ⟨?_, ?_, ?_⟩
      · intro h' hm
        simp only [List.map_append, List.map_cons, List.map_nil]
        rcases insertHash_cases _ _ _ hm with hold | rfl
        · exact List.mem_append_left _ (hs h' hold)
        · exact List.mem_append_right _ (by simp)
      · intro hn
        simp only [List.map_append, List.map_cons, List.map_nil]
        rw [List.nodup_append]
        exact ⟨hn, List.nodup_singleton _, by simpa using hnot⟩
      · simp only [List.map_append, List.map_cons, List.map_nil, List.toFinset_append]
        rw [Finset.union_comm]
        simp [Finset.insert_eq]

lemma uploadLoop_cache (items : List (Hash × Block)) : ∀ (s : Storage) (b : Blob),
    (∀ it ∈ items, it.1 ∈ (uploadLoop s b items).1.data.hashes_stored) ∧
    (∀ h' ∈ s.data.hashes_stored, h' ∈ (uploadLoop s b items).1.data.hashes_stored) := by
  induction items with
  | nil => intro s b; exact ⟨by simp, fun h' hm => hm⟩
  | cons it rest ih =>
    intro s b
    obtain ⟨h, blk⟩ := it
    simp only [uploadLoop]
    constructor
    · intro it' hmem
      rcases List.mem_cons.mp hmem with heq | hmem'
      · rw [heq]
        exact (ih _ _).2 h (put_block_cache_mem s h blk.data)
      · exact (ih _ _).1 it' hmem'
    · intro h' hm
      exact (ih _ _).2 h' (put_block_cache_mono s h blk.data h' hm)

lemma uploadLoop_fst_of_cached (items : List (Hash × Block)) : ∀ (s : Storage) (b : Blob),
    (∀ it ∈ items, it.1 ∈ s.data.hashes_stored) → (uploadLoop s b items).1 = s := by
  induction items with
  | nil => intro s b _; rfl
  | cons it rest ih =>
    intro s b hall
    obtain ⟨h, blk⟩ := it
    simp only [uploadLoop]
    rw [put_block_of_cached s h blk.data (hall (h, blk) (by simp))]
    exact ih s _ (fun it' hm => hall it' (List.mem_cons_of_mem _ hm))

lemma uploadLoop_snd (items : List (Hash × Block)) : ∀ (s : Storage) (b : Blob),
    (uploadLoop s b items).2 =
      items.foldl (fun b it => blobSet b it.2.idx it.1) b := by
  induction items with
  | nil => intro s b; rfl
  | cons it rest ih =>
    intro s b
    obtain ⟨h, blk⟩ := it
    simp only [uploadLoop, List.foldl_cons]
    exact ih _ _

lemma uploadLoop_keys (items : List (Hash × Block)) : ∀ (s : Storage) (b : Blob),
    cacheSound s → (s.objects.map Prod.fst).Nodup →
    cacheSound (uploadLoop s b items).1 ∧
    ((uploadLoop s b items).1.objects.map Prod.fst).Nodup ∧
    ((uploadLoop s b items).1.objects.map Prod.fst).toFinset =
      (s.objects.map Prod.fst).toFinset ∪
        (items.map (fun it => object_path it.1)).toFinset := by
  induction items with
  | nil => intro s b hs hn; exact ⟨hs, hn, by simp [uploadLoop]⟩
  | cons it rest ih =>
    intro s b hs hn
    obtain ⟨h, blk⟩ := it
    simp only [uploadLoop]
    obtain ⟨hs', hn', hset'⟩ := put_block_keys s h blk.data hs
    obtain ⟨ihs, ihn, ihset⟩ := ih (put_block s h blk.data) (blobSet b blk.idx h) hs' (hn' hn)
    refine ⟨ihs, ihn, ?_⟩
    rw [ihset, hset']
    simp only [List.map_cons, List.toFinset_cons]
    rw [Finset.insert_union, Finset.union_insert]

lemma uploadLoop_root (items : List (Hash × Block)) : ∀ (s : Storage) (b : Blob),
    (uploadLoop s b items).1.root = s.root ∧
    (uploadLoop s b items).1.data.metadata = s.data.metadata := by
  induction items with
  | nil => intro s b; exact ⟨rfl, rfl⟩
  | cons it rest ih =>
    intro s b
    obtain ⟨h, blk⟩ := it
    simp only [uploadLoop]
    have hpb : (put_block s h blk.data).root = s.root ∧
        (put_block s h blk.data).data.metadata = s.data.metadata := by
      unfold put_block has_block
      by_cases hc : h ∈ s.data.hashes_stored
      · simp [hc]
      · by_cases he : (lookupKey s.objects (object_path h)).isSome = true
        · simp [hc, he]
        · simp [hc, he]
    obtain ⟨ih1, ih2⟩ := ih (put_block s h blk.data) (blobSet b blk.idx h)
    exact ⟨ih1.trans hpb.1, ih2.trans hpb.2⟩

lemma list_set_append_same {α : Type} (pre : List α) (x : α) (t : List α) :
    (pre ++ x :: t).set pre.length x = pre ++ x :: t := by
  induction pre with
  | nil => simp
  | cons a l ih => simp [List.set, ih]

lemma blobFold_build (H : Bytes → Hash) (ds : List Bytes) : ∀ (pre : List Hash),
    ((itemsFrom H pre.length ds).foldl (fun b it => blobSet b it.2.idx it.1)
      { chunk_hashes := pre } : Blob) = { chunk_hashes := pre ++ ds.map H } := by
  induction ds with
  | nil => intro pre; simp [itemsFrom]
  | cons d ds ih =>
    intro pre
    simp only [itemsFrom, List.foldl_cons, List.map_cons]
    have hset : blobSet { chunk_hashes := pre } pre.length (H d) =
        { chunk_hashes := pre ++ [H d] } := by
      unfold blobSet
      simp
    rw [hset]
    have hrec := ih (pre ++ [H d])
    simp only [List.length_append, List.length_cons, List.length_nil] at hrec
    rw [hrec]
    simp

lemma blobFold_refold (H : Bytes → Hash) (ds : List Bytes) : ∀ (pre : List Hash),
    ((itemsFrom H pre.length ds).foldl (fun b it => blobSet b it.2.idx it.1)
      { chunk_hashes := pre ++ ds.map H } : Blob) = { chunk_hashes := pre ++ ds.map H } := by
  induction ds with
  | nil => intro pre; simp [itemsFrom]
  | cons d ds ih =>
    intro pre
    simp only [itemsFrom, List.foldl_cons, List.map_cons]
    have hset : blobSet { chunk_hashes := pre ++ H d :: ds.map H } pre.length (H d) =
        { chunk_hashes := pre ++ H d :: ds.map H } := by
      unfold blobSet
      have hlen : ¬ (pre ++ H d :: ds.map H).length ≤ pre.length := by
        simp
      rw [if_neg hlen]
      rw [list_set_append_same pre (H d) (ds.map H)]
    rw [hset]
    have hrec := ih (pre ++ [H d])
    simp only [List.length_append, List.length_cons, List.length_nil] at hrec
    rw [show (pre ++ [H d]) ++ ds.map H = pre ++ H d :: ds.map H from by simp] at hrec
    rw [hrec]

/-- C5 (amended): put_block is idempotent — a second put of the same hash and
block leaves the entire storage state unchanged (double-put is safe) — and
after two backups of identical file contents the store contains exactly one
chunk object per distinct chunk key among the file's full CHUNK_SIZE blocks
(no duplicate objects; the dropped partial tail and repeated identical chunks
make this the distinct-key count rather than ceil(len/CHUNK_SIZE)), the
second backup changing nothing at all. -/
theorem put_block_idempotent_and_dedup :
    (∀ (s : Storage) (h : Hash) (d : Bytes),
      put_block (put_block s h d) h d = put_block s h d) ∧
    (∀ (H : Bytes → Hash) (B : Bytes), ∃ s1,
      backup H emptyStorage B true = some s1 ∧
      backup H s1 B false = some s1 ∧
      (s1.objects.map Prod.fst).Nodup ∧
      s1.objects.length =
        ((backupItems H B).map (fun it => object_path it.1)).dedup.length) := by
  constructor
  · exact put_block_idem
  · intro H B
    classical
    set items := backupItems H B with hitems
    set L := uploadLoop emptyStorage { chunk_hashes := [] } items with hL
    set s1 := put_root_metadata L.1 L.2 with hs1
    have hsound0 : cacheSound emptyStorage := by
      intro h' hm
      simp [emptyStorage] at hm
    have hnodup0 : ((emptyStorage.objects.map Prod.fst)).Nodup := by
      simp [emptyStorage]
    obtain ⟨hsound1, hnodup1, hset1⟩ :=
      uploadLoop_keys items emptyStorage { chunk_hashes := [] } hsound0 hnodup0
    have hfirst : backup H emptyStorage B true = some s1 := by
      simp only [backup, upload, hitems, hs1, hL]
      rfl
    have hblob : L.2 = { chunk_hashes := (chunkBlocks CHUNK_SIZE B).map H } := by
      rw [hL, uploadLoop_snd, hitems, backupItems]
      have := blobFold_build H (chunkBlocks CHUNK_SIZE B) []
      simpa using this
    have hcache_eq : s1.data.hashes_stored = L.1.data.hashes_stored := rfl
    have hobj_eq : s1.objects = L.1.objects := rfl
    have hsecond : backup H s1 B false = some s1 := by
      have hroot : get_root_metadata s1 = some (L.2, s1) := rfl
      have hallcached : ∀ it ∈ items, it.1 ∈ s1.data.hashes_stored := by
        rw [hcache_eq]
        exact (uploadLoop_cache items emptyStorage { chunk_hashes := [] }).1
      have hfst : (uploadLoop s1 L.2 items).1 = s1 :=
        uploadLoop_fst_of_cached items s1 L.2 hallcached
      have hsnd : (uploadLoop s1 L.2 items).2 = L.2 := by
        rw [uploadLoop_snd, hitems, backupItems, hblob]
        have := blobFold_refold H (chunkBlocks CHUNK_SIZE B) []
        simpa using this
      have hpair : uploadLoop s1 L.2 items = (s1, L.2) := Prod.ext hfst hsnd
      have hup : upload s1 false items =
          some (put_root_metadata (uploadLoop s1 L.2 items).1
            (uploadLoop s1 L.2 items).2) := by
        unfold upload
        simp [hroot]
      show upload s1 false (backupItems H B) = some s1
      rw [← hitems, hup, hpair]
      rfl
    refine ⟨s1, hfirst, hsecond, by rw [hobj_eq]; exact hnodup1, ?_⟩
    rw [hobj_eq]
    have hlen1 : (L.1.objects.map Prod.fst).length = L.1.objects.length := by
      simp
    rw [← hlen1, ← List.toFinset_card_of_nodup hnodup1, hset1]
    have hempty : ((emptyStorage.objects.map Prod.fst)).toFinset = ∅ := by
      simp [emptyStorage]
    rw [hempty, Finset.empty_union, List.card_toFinset]

end Bup
